import Mathlib

/-!
Shallow embedding of the math utilities of `src/zzArchive/test_c_program/math_utils.c`
and the calculator's `divide` of `src/test_c_program/main.c`.

C `int` values are modelled as `Int`; the float result of `divide` is modelled
exactly as `Rat` (the claim about `divide` concerns its zero-divisor guard, not
rounding).  Loops become recursive functions on the loop variables, faithful to
the C control flow: every branch and every test of the source appears verbatim.
All `%` tests in the source are reached only with nonnegative operands, where
C's truncated remainder and Lean's `Int.emod` agree.
-/

namespace MathUtils

/-- Embedding of `factorial` from math_utils.c:
`if (n <= 1) return 1; return n * factorial(n - 1);`. -/
def factorial (n : Int) : Int :=
  if n ≤ 1 then 1
  else n * factorial (n - 1)
termination_by n.toNat
decreasing_by
  simp_wf
  omega

/-- An integer is at most its own square (used only for termination of the
trial-division loop). -/
theorem le_mul_self_int (i : Int) : i ≤ i * i := by
  rcases le_or_lt i 0 with h | h
  · exact h.trans (mul_self_nonneg i)
  · nlinarith

/-- Embedding of the loop of `is_prime` in math_utils.c:
`for (int i = 3; i * i <= n; i += 2) if (n % i == 0) return 0; return 1;`. -/
def trialLoop (n i : Int) : Bool :=
  if i * i ≤ n then
    if n % i = 0 then false
    else trialLoop n (i + 2)
  else true
termination_by (n + 2 - i).toNat
decreasing_by
  simp_wf
  have h1 : i ≤ n := le_trans (le_mul_self_int i) (by assumption)
  omega

/-- Embedding of `is_prime` from math_utils.c. -/
def is_prime (n : Int) : Bool :=
  if n ≤ 1 then false
  else if n = 2 then true
  else if n % 2 = 0 then false
  else trialLoop n 3

/-- Embedding of the loop of `power` in math_utils.c:
`for (int i = 0; i < exponent; i++) result *= base;`. -/
def powerLoop (base exponent i result : Int) : Int :=
  if i < exponent then powerLoop base exponent (i + 1) (result * base)
  else result
termination_by (exponent - i).toNat
decreasing_by
  simp_wf
  omega

/-- Embedding of `power` from math_utils.c: the loop starting at `i = 0` with
accumulator `result = 1`. -/
def power (base exponent : Int) : Int :=
  powerLoop base exponent 0 1

/-- Embedding of `divide` from main.c: `if (b == 0) return 0.0; return (float)a / b;`,
with the float result modelled exactly as a rational. -/
def divide (a b : Int) : Rat :=
  if b = 0 then 0
  else (a : Rat) / (b : Rat)

/-- Naive trial division by every integer in `[2, n-1]`, following the spec's
cross-check sentence; `is_prime` is compared against it in the refinement
claim. -/
def naive_is_prime (n : Int) : Bool :=
  (List.range' 2 (n - 2).toNat).all fun d => decide (¬ n % (d : Int) = 0)

/-- The `power` loop multiplies the accumulator by `base` once per remaining
iteration: `powerLoop base e i r = r * base ^ (e - i).toNat`. -/
theorem powerLoop_eq (base : Int) :
    ∀ (k : Nat) (e i r : Int), (e - i).toNat = k → powerLoop base e i r = r * base ^ k := by
  intro k
  induction k with
  | zero =>
    intro e i r hk
    rw [powerLoop.eq_def, if_neg (by omega)]
    simp
  | succ k ih =>
    intro e i r hk
    rw [powerLoop.eq_def, if_pos (by omega)]
    rw [ih e (i + 1) (r * base) (by omega)]
    ring

/-- `power` computes an exact integer power of its base, the exponent clamped
at zero. -/
theorem power_eq_pow_toNat (base e : Int) : power base e = base ^ e.toNat := by
  rw [power, powerLoop_eq base e.toNat e 0 1 (by omega)]
  ring

/-- For nonnegative `i` and `n`, being at most the integer square root of `n`
is the loop bound `i * i ≤ n` of the source. -/
theorem le_sqrt_iff (n i : Int) (hn : 0 ≤ n) (hi : 0 ≤ i) :
    i ≤ Int.sqrt n ↔ i * i ≤ n := by
  obtain ⟨a, rfl⟩ := Int.eq_ofNat_of_zero_le hi
  obtain ⟨b, rfl⟩ := Int.eq_ofNat_of_zero_le hn
  rw [Int.sqrt_natCast]
  constructor
  · intro h
    have ha : a ≤ Nat.sqrt b := by exact_mod_cast h
    exact_mod_cast Nat.le_sqrt.mp ha
  · intro h
    have ha : a * a ≤ b := by exact_mod_cast h
    exact_mod_cast Nat.le_sqrt.mpr ha

/-- The trial-division loop starting at an odd positive `i` succeeds exactly
when no odd `j ≥ i` with `j * j ≤ n` divides `n`. -/
theorem trialLoop_eq_true_iff (n : Int) :
    ∀ (k : Nat) (i : Int), (n + 2 - i).toNat ≤ k → 0 < i → i % 2 = 1 →
      (trialLoop n i = true ↔ ∀ j : Int, i ≤ j → j % 2 = 1 → j * j ≤ n → ¬ j ∣ n) := by
  intro k
  induction k with
  | zero =>
    intro i hk hi hodd
    rw [trialLoop.eq_def, if_neg]
    · constructor
      · intro _ j hij hjodd hjj hdvd
        have h2 : j ≤ j * j := le_mul_self_int j
        omega
      · intro _
        rfl
    · intro hcon
      have h2 : i ≤ i * i := le_mul_self_int i
      omega
  | succ k ih =>
    intro i hk hi hodd
    rw [trialLoop.eq_def]
    by_cases hguard : i * i ≤ n
    · rw [if_pos hguard]
      have hin : i ≤ n := (le_mul_self_int i).trans hguard
      by_cases hmod : n % i = 0
      · rw [if_pos hmod]
        simp only [Bool.false_eq_true, false_iff]
        push_neg
        exact ⟨i, le_rfl, hodd, hguard, Int.dvd_of_emod_eq_zero hmod⟩
      · rw [if_neg hmod]
        rw [ih (i + 2) (by omega) (by omega) (by omega)]
        constructor
        · intro h j hij hjodd hjj hdvd
          rcases eq_or_lt_of_le hij with rfl | hlt
          · exact hmod (Int.emod_eq_zero_of_dvd hdvd)
          · exact h j (by omega) hjodd hjj hdvd
        · intro h j hij hjodd hjj
          exact h j (by omega) hjodd hjj
    · rw [if_neg hguard]
      constructor
      · intro _ j hij hjodd hjj hdvd
        exact hguard (le_trans (by nlinarith) hjj)
      · intro _
        rfl

/-- `is_prime` on inputs at least 2 succeeds exactly when no divisor `d` with
`2 ≤ d` and `d * d ≤ n` divides `n`. -/
theorem is_prime_eq_true_iff_sqrt (n : Int) (hn : 2 ≤ n) :
    is_prime n = true ↔ ∀ d : Int, 2 ≤ d → d * d ≤ n → ¬ d ∣ n := by
  rw [is_prime, if_neg (by omega)]
  by_cases h2 : n = 2
  · subst h2
    rw [if_pos rfl]
    constructor
    · intro _ d hd hdd hdvd
      nlinarith
    · intro _
      rfl
  · rw [if_neg h2]
    by_cases heven : n % 2 = 0
    · rw [if_pos heven]
      simp only [Bool.false_eq_true, false_iff]
      push_neg
      exact ⟨2, le_rfl, by omega, Int.dvd_of_emod_eq_zero heven⟩
    · rw [if_neg heven]
      rw [trialLoop_eq_true_iff n ((n + 2 - 3).toNat) 3 le_rfl (by omega) (by omega)]
      constructor
      · intro h d hd hdd hdvd
        rcases (by omega : d % 2 = 0 ∨ d % 2 = 1) with hp | hp
        · have h2d : (2 : Int) ∣ d := Int.dvd_of_emod_eq_zero hp
          have h2n : (2 : Int) ∣ n := h2d.trans hdvd
          have := Int.emod_eq_zero_of_dvd h2n
          omega
        · exact h d (by omega) hp hdd hdvd
      · intro h j hij hjodd hjj
        exact h j (by omega) hjj

/-- Absence of divisors up to the square root is absence of divisors in all of
`[2, n-1]`: a proper divisor pairs with a cofactor, and the smaller of the two
is at most the square root. -/
theorem sqrt_bound_iff_full_range (n : Int) (hn : 2 ≤ n) :
    (∀ d : Int, 2 ≤ d → d * d ≤ n → ¬ d ∣ n) ↔
      ∀ d : Int, 2 ≤ d → d ≤ n - 1 → ¬ d ∣ n := by
  constructor
  · intro h d hd hle hdvd
    obtain ⟨e, he⟩ := hdvd
    have he0 : 0 < e := by nlinarith
    have he2 : 2 ≤ e := by
      by_contra hcon
      push_neg at hcon
      have he1 : e = 1 := by omega
      rw [he1, mul_one] at he
      omega
    rcases le_total d e with hde | hde
    · exact h d hd (by nlinarith) ⟨e, he⟩
    · exact h e he2 (by nlinarith) ⟨d, by rw [he]; ring⟩
  · intro h d hd hdd hdvd
    have h2 : 2 * d ≤ d * d := by nlinarith
    exact h d hd (by omega) hdvd

/-- `naive_is_prime` on inputs at least 2 succeeds exactly when no integer in
`[2, n-1]` divides `n`. -/
theorem naive_is_prime_eq_true_iff (n : Int) (hn : 2 ≤ n) :
    naive_is_prime n = true ↔ ∀ d : Int, 2 ≤ d → d ≤ n - 1 → ¬ d ∣ n := by
  rw [naive_is_prime, List.all_eq_true]
  constructor
  · intro h d hd hle hdvd
    have hmem : d.toNat ∈ List.range' 2 (n - 2).toNat := by
      rw [List.mem_range'_1]
      omega
    have h2 := h d.toNat hmem
    simp only [decide_eq_true_eq] at h2
    apply h2
    rw [Int.toNat_of_nonneg (by omega : (0 : Int) ≤ d)]
    exact Int.emod_eq_zero_of_dvd hdvd
  · intro h d hmem
    rw [List.mem_range'_1] at hmem
    simp only [decide_eq_true_eq]
    intro hmod
    exact h d (by omega) (by omega) (Int.dvd_of_emod_eq_zero hmod)

/-- C1: for every integer `n ≥ 2`, the optimised `is_prime` (skipping even
candidates and stopping at the integer square root) agrees with naive trial
division by every integer in `[2, n-1]`. -/
theorem is_prime_agrees_with_naive (n : Int) (hn : 2 ≤ n) :
    is_prime n = naive_is_prime n := by
  have h1 := is_prime_eq_true_iff_sqrt n hn
  have h2 := naive_is_prime_eq_true_iff n hn
  have h3 := sqrt_bound_iff_full_range n hn
  have hiff : is_prime n = true ↔ naive_is_prime n = true := by
    rw [h1, h3, h2]
  cases hp : is_prime n <;> cases hq : naive_is_prime n <;> simp_all

/-- Witness for C1 at the concrete input `n = 10`. -/
theorem is_prime_agrees_with_naive_witness :
    (2 : Int) ≤ 10 ∧ is_prime 10 = naive_is_prime 10 :=
  ⟨by norm_num, is_prime_agrees_with_naive 10 (by norm_num)⟩

/-- C2: for every odd `n > 2`, `is_prime n` succeeds exactly when no odd
integer in `[3, floor (sqrt n)]` divides `n`: it trial-divides by the odd
candidates 3, 5, 7, ... up to the integer square root, failing on any divisor
found and succeeding otherwise. -/
theorem is_prime_odd_trial_division (n : Int) (hn : 2 < n) (hodd : n % 2 = 1) :
    is_prime n = true ↔
      ∀ i : Int, 3 ≤ i → i % 2 = 1 → i ≤ Int.sqrt n → ¬ i ∣ n := by
  rw [is_prime, if_neg (by omega), if_neg (by omega), if_neg (by omega)]
  rw [trialLoop_eq_true_iff n ((n + 2 - 3).toNat) 3 le_rfl (by omega) (by omega)]
  constructor
  · intro h i h3 hparity hsqrt
    exact h i h3 hparity ((le_sqrt_iff n i (by omega) (by omega)).mp hsqrt)
  · intro h j hij hjodd hjj
    exact h j hij hjodd ((le_sqrt_iff n j (by omega) (by omega)).mpr hjj)

/-- Witness for C2 at the concrete odd input `n = 9`. -/
theorem is_prime_odd_trial_division_witness :
    (2 : Int) < 9 ∧ (9 : Int) % 2 = 1 ∧
      (is_prime 9 = true ↔
        ∀ i : Int, 3 ≤ i → i % 2 = 1 → i ≤ Int.sqrt 9 → ¬ i ∣ 9) :=
  ⟨by norm_num, by norm_num, is_prime_odd_trial_division 9 (by norm_num) (by norm_num)⟩

/-- C3: `factorial` returns 1 for every `n ≤ 1`, satisfies the recurrence
`factorial n = n * factorial (n - 1)` for every `n ≥ 1`, and in particular
`factorial 0 = 1`, `factorial 1 = 1` and `factorial 5 = 120`. -/
theorem factorial_spec :
    (∀ n : Int, n ≤ 1 → factorial n = 1) ∧
      (∀ n : Int, 1 ≤ n → factorial n = n * factorial (n - 1)) ∧
      factorial 0 = 1 ∧ factorial 1 = 1 ∧ factorial 5 = 120 := by
  have hbase : ∀ n : Int, n ≤ 1 → factorial n = 1 := by
    intro n h
    rw [factorial.eq_def, if_pos h]
  have hrec : ∀ n : Int, 1 ≤ n → factorial n = n * factorial (n - 1) := by
    intro n h
    rcases eq_or_lt_of_le h with h1 | h1
    · rw [← h1, hbase 1 le_rfl, show (1 : Int) - 1 = 0 from by norm_num,
        hbase 0 (by norm_num)]
      norm_num
    · rw [factorial.eq_def, if_neg (by omega)]
  refine ⟨hbase, hrec, hbase 0 (by norm_num), hbase 1 le_rfl, ?_⟩
  rw [hrec 5 (by norm_num)]
  norm_num
  rw [hrec 4 (by norm_num)]
  norm_num
  rw [hrec 3 (by norm_num)]
  norm_num
  rw [hrec 2 (by norm_num)]
  norm_num
  rw [hbase 1 le_rfl]
  norm_num

/-- C4: for every base and every nonnegative exponent, `power` returns the
base raised to that exponent (`Int` has no overflow, so every mathematical
result is representable in the model); in particular `power 2 10 = 1024` and
`power 3 3 = 27`. -/
theorem power_spec :
    (∀ base e : Int, 0 ≤ e → power base e = base ^ e.toNat) ∧
      power 2 10 = 1024 ∧ power 3 3 = 27 := by
  refine ⟨fun base e _ => power_eq_pow_toNat base e, ?_, ?_⟩
  · rw [power_eq_pow_toNat]
    have h : (10 : Int).toNat = 10 := rfl
    rw [h]
    norm_num
  · rw [power_eq_pow_toNat]
    have h : (3 : Int).toNat = 3 := rfl
    rw [h]
    norm_num

/-- C5: `power` returns 1 for every exponent `e ≤ 0`: for `e = 0` by
definition of the accumulator, and for negative `e` because the loop body
never executes. -/
theorem power_nonpos_exponent (base e : Int) (h : e ≤ 0) : power base e = 1 := by
  rw [power_eq_pow_toNat, Int.toNat_of_nonpos h, pow_zero]

/-- Witness for C5 at the concrete input `power 2 (-3)`. -/
theorem power_nonpos_exponent_witness :
    (-3 : Int) ≤ 0 ∧ power 2 (-3) = 1 :=
  ⟨by norm_num, power_nonpos_exponent 2 (-3) (by norm_num)⟩

/-- C6: `is_prime` returns false for every `n ≤ 1` (negative inputs and 0
included), true for `n = 2`, false for every even `n > 2`; in particular
`is_prime 2 = true`, `is_prime 17 = true` and `is_prime 18 = false`. -/
theorem is_prime_base_cases :
    (∀ n : Int, n ≤ 1 → is_prime n = false) ∧
      is_prime 2 = true ∧
      (∀ n : Int, 2 < n → n % 2 = 0 → is_prime n = false) ∧
      is_prime 17 = true ∧ is_prime 18 = false := by
  refine ⟨?_, ?_, ?_, ?_, ?_⟩
  · intro n h
    rw [is_prime, if_pos h]
  · rw [is_prime, if_neg (by norm_num), if_pos rfl]
  · intro n h1 h2
    rw [is_prime, if_neg (by omega), if_neg (by omega), if_pos h2]
  · apply (is_prime_eq_true_iff_sqrt 17 (by norm_num)).mpr
    intro d hd hdd hdvd
    have h4 : d ≤ 4 := by nlinarith
    interval_cases d <;> omega
  · rw [is_prime, if_neg (by norm_num), if_neg (by norm_num), if_pos (by norm_num)]

/-- C7: all three functions are total: `factorial`, `is_prime` and `power`
terminate and return a value on every integer input, with no error signalled;
the recursion of `factorial` terminates on negative inputs because the
`n ≤ 1` base case covers them. -/
theorem math_utils_total :
    (∀ n : Int, ∃ v : Int, factorial n = v) ∧
      (∀ n : Int, n ≤ 1 → factorial n = 1) ∧
      (∀ n : Int, ∃ b : Bool, is_prime n = b) ∧
      (∀ base e : Int, ∃ v : Int, power base e = v) := by
  refine ⟨fun n => ⟨factorial n, rfl⟩, ?_, fun n => ⟨is_prime n, rfl⟩,
    fun base e => ⟨power base e, rfl⟩⟩
  intro n h
  rw [factorial.eq_def, if_pos h]

/-- C8: `factorial`, `is_prime` and `power` are deterministic: equal arguments
give equal results (the embedding is a pure function of the arguments, with no
outside state read or written). -/
theorem math_utils_deterministic :
    (∀ a b : Int, a = b → factorial a = factorial b) ∧
      (∀ a b : Int, a = b → is_prime a = is_prime b) ∧
      (∀ a b c d : Int, a = c → b = d → power a b = power c d) :=
  ⟨fun a b h => by rw [h], fun a b h => by rw [h],
    fun a b c d h1 h2 => by rw [h1, h2]⟩

/-- C9: `divide` never divides by zero: `divide a 0` takes the guarded error
branch and returns 0, and for every `b ≠ 0` it returns the exact quotient
`a / b`, the division being evaluated only under the guard `b ≠ 0`. -/
theorem divide_never_divides_by_zero :
    (∀ a : Int, divide a 0 = 0) ∧
      (∀ a b : Int, b ≠ 0 → divide a b = (a : Rat) / (b : Rat)) := by
  constructor
  · intro a
    rw [divide, if_pos rfl]
  · intro a b h
    rw [divide, if_neg h]

/-- C10: `power base 1 = base` for every base, and `power 1 e = 1` for every
exponent: the accumulator 1 is a multiplicative identity. -/
theorem power_identities :
    (∀ base : Int, power base 1 = base) ∧ (∀ e : Int, power 1 e = 1) := by
  constructor
  · intro base
    rw [power_eq_pow_toNat]
    have h : (1 : Int).toNat = 1 := rfl
    rw [h, pow_one]
  · intro e
    rw [power_eq_pow_toNat, one_pow]

end MathUtils
